import Mathlib

/-!
# Verification of the articleDetector core pipeline

Shallow embedding of the heuristic document-classification and lexical-analysis
pipeline: paragraph segmentation and word frequency (`text_analyzer.py`),
feature extraction / confidence scoring / classification (`classifier.py`),
and compliance checking (`compliance_validator.py`).

Texts are modelled as `List Char`.  Python floats are modelled by exact
rationals (`ℚ`); the score arithmetic only adds and compares small decimal
constants, and the spec treats it as exact decimal arithmetic.  Regular
expressions are modelled by character-level scanners that reproduce the
leftmost, greedy, non-overlapping match semantics of the concrete patterns
used in the source (each pattern is deterministic: greedy sub-matches can
never be shrunk by backtracking into a successful match, so maximal-munch
scanning is exact).  The whitespace class `\s`, the digit class `\d` and the
word class `\w` are modelled over ASCII plus the Portuguese accented letters
that appear in the source's own character classes.
-/

set_option maxRecDepth 4000

namespace ArticleDetector

/-- Python whitespace (`str.split()`, `str.strip()`, regex `\s`), ASCII range. -/
def isPySpace (c : Char) : Bool :=
  c = ' ' || c = '\t' || c = '\n' || c = '\r' || c = '\x0b' || c = '\x0c'

/-- Lower-case accented letters appearing in the analyzer's regex class. -/
def accentLower : List Char :=
  ['á', 'é', 'í', 'ó', 'ú', 'à', 'è', 'ì', 'ò', 'ù', 'â', 'ê', 'î', 'ô', 'û', 'ã', 'õ', 'ç']

/-- Upper-case accented letters appearing in the analyzer's regex class. -/
def accentUpper : List Char :=
  ['Á', 'É', 'Í', 'Ó', 'Ú', 'À', 'È', 'Ì', 'Ò', 'Ù', 'Â', 'Ê', 'Î', 'Ô', 'Û', 'Ã', 'Õ', 'Ç']

/-- Python `str.lower()` restricted to the character universe of the model:
ASCII letters and the Portuguese accented letters used by the source. -/
def pyLowerChar (c : Char) : Char :=
  if c.isUpper then Char.ofNat (c.toNat + 32)
  else if c = 'Á' then 'á' else if c = 'É' then 'é' else if c = 'Í' then 'í'
  else if c = 'Ó' then 'ó' else if c = 'Ú' then 'ú' else if c = 'À' then 'à'
  else if c = 'È' then 'è' else if c = 'Ì' then 'ì' else if c = 'Ò' then 'ò'
  else if c = 'Ù' then 'ù' else if c = 'Â' then 'â' else if c = 'Ê' then 'ê'
  else if c = 'Î' then 'î' else if c = 'Ô' then 'ô' else if c = 'Û' then 'û'
  else if c = 'Ã' then 'ã' else if c = 'Õ' then 'õ' else if c = 'Ç' then 'ç'
  else c

/-- Python `str.lower()` on a text. -/
def pyLower (cs : List Char) : List Char := cs.map pyLowerChar

/-- The letter class of the analyzer's tokenization regex:
`[a-zA-Z]` plus the accented letters (both cases). -/
def isLetterTok (c : Char) : Bool :=
  c.isLower || c.isUpper || accentLower.contains c || accentUpper.contains c

/-- Python regex `\w` over the model's character universe
(letters, digits, underscore); used for `\b` word boundaries. -/
def isWordChar (c : Char) : Bool :=
  isLetterTok c || c.isDigit || c = '_'

/-- Python `str.split()` with no arguments: split on whitespace runs,
dropping empty chunks. -/
def pySplit (cs : List Char) : List (List Char) :=
  (cs.splitOnP isPySpace).filter (fun w => w ≠ [])

/-- Python `' '.join`. -/
def unwords : List (List Char) → List Char
  | [] => []
  | [w] => w
  | w :: ws => w ++ ' ' :: unwords ws

/-- Python `str.strip()`: drop leading and trailing whitespace. -/
def pyStrip (cs : List Char) : List Char :=
  ((cs.dropWhile isPySpace).reverse.dropWhile isPySpace).reverse

/-- The part of a whitespace run before its first newline: on a paragraph
separator match of `\n\s*\n+`, these characters stay with the left chunk. -/
def runBefore (run : List Char) : List Char := run.takeWhile (fun c => c ≠ '\n')

/-- The part of a whitespace run after its last newline: on a paragraph
separator match of `\n\s*\n+`, these characters stay with the right chunk. -/
def runAfter (run : List Char) : List Char :=
  (run.reverse.takeWhile (fun c => c ≠ '\n')).reverse

/-- One pass of `re.split(r'\n\s*\n+', ·)` as a character automaton.
`cur` is the chunk being built, `run` buffers the current maximal whitespace
run.  The regex matches inside a maximal whitespace run exactly when the run
holds at least two newlines, and the match spans from the run's first newline
through its last newline; whitespace before the first newline belongs to the
left chunk and whitespace after the last newline to the right chunk. -/
def rawSplitGo (cur run : List Char) : List Char → List (List Char)
  | [] =>
    if 2 ≤ run.count '\n' then [cur ++ runBefore run, runAfter run]
    else [cur ++ run]
  | c :: rest =>
    if isPySpace c then rawSplitGo cur (run ++ [c]) rest
    else if 2 ≤ run.count '\n' then
      (cur ++ runBefore run) :: rawSplitGo (runAfter run ++ [c]) [] rest
    else rawSplitGo (cur ++ run ++ [c]) [] rest

/-- Python `re.split(r'\n\s*\n+', text)`. -/
def rawSplit (cs : List Char) : List (List Char) := rawSplitGo [] [] cs

/-- `TextAnalyzer.detect_paragraphs`: strip the text, split on blank-line
separators, collapse each block's internal whitespace to single spaces,
and keep only blocks with at least 3 whitespace-delimited words. -/
def detect_paragraphs (text : List Char) : List (List Char) :=
  if text = [] then []
  else
    ((rawSplit (pyStrip text)).map (fun para => unwords (pySplit para))).filter
      (fun para => 3 ≤ (pySplit para).length)

/-- `TextAnalyzer.count_paragraphs`. -/
def count_paragraphs (paragraphs : List (List Char)) : Nat := paragraphs.length

/-- `TextAnalyzer.extract_body_text`: Python `'\n\n'.join(paragraphs)`. -/
def extract_body_text : List (List Char) → List Char
  | [] => []
  | [p] => p
  | p :: ps => p ++ '\n' :: '\n' :: extract_body_text ps

/-- One pass of `re.findall(r'\b[letter class]+\b', ·)` as a character
automaton.  `bw` records whether the character immediately before the current
letter run is a word character (`\w`), `run` is the letter run being built.
A maximal letter run is a match exactly when the characters adjacent to it on
both sides are not word characters (`\b` at both ends); a proper sub-run can
never match instead, because the letter adjacent to it is a word character. -/
def tokGo (bw : Bool) (run : List Char) : List Char → List (List Char)
  | [] => if run.isEmpty || bw then [] else [run]
  | c :: rest =>
    if isLetterTok c then tokGo bw (run ++ [c]) rest
    else
      (if !run.isEmpty && !bw && !isWordChar c then [run] else []) ++
        tokGo (isWordChar c) [] rest

/-- `TextAnalyzer.tokenize_words`: lower-case, then extract letter tokens. -/
def tokenize_words (text : List Char) : List (List Char) :=
  if text = [] then [] else tokGo false [] (pyLower text)

/-- `TextAnalyzer.remove_stopwords`, parametrized by the stopword set (the
source obtains it externally, from NLTK plus a fixed supplementary list). -/
def remove_stopwords (stop : List (List Char)) (words : List (List Char)) :
    List (List Char) :=
  words.filter (fun word => !(stop.contains word) && decide (2 < word.length))

/-- The distinct elements of a word list in first-appearance order: the key
order of a CPython `Counter`/`dict` built by counting. -/
def firstOccs (seen : List (List Char)) : List (List Char) → List (List Char)
  | [] => []
  | w :: ws => if seen.contains w then firstOccs seen ws else w :: firstOccs (w :: seen) ws

/-- `collections.Counter(words).items()`: distinct words in first-appearance
order, each paired with its total number of occurrences. -/
def countsInOrder (words : List (List Char)) : List (List Char × Nat) :=
  (firstOccs [] words).map (fun w => (w, words.count w))

/-- Sort key of `Counter.most_common`: larger count first. -/
def freqRel (a b : List Char × Nat) : Prop := b.2 ≤ a.2

instance : DecidableRel freqRel := fun a b => Nat.decLe b.2 a.2

/-- `Counter.most_common(top_n)`: the items stably sorted by descending count
(`heapq.nlargest` is documented to be equivalent to a stable
`sorted(..., reverse=True)` truncated to `top_n`). -/
def most_common (top_n : Nat) (items : List (List Char × Nat)) : List (List Char × Nat) :=
  (List.insertionSort freqRel items).take top_n

/-- The token stream whose occurrences `calculate_word_frequency` counts:
the tokenized words, after stopword removal when requested. -/
def remainingTokens (stop : List (List Char)) (rm : Bool) (text : List Char) :
    List (List Char) :=
  if rm then remove_stopwords stop (tokenize_words text) else tokenize_words text

/-- `TextAnalyzer.calculate_word_frequency`. -/
def calculate_word_frequency (stop : List (List Char)) (text : List Char)
    (top_n : Nat) (remove_stop_words : Bool) : List (List Char × Nat) :=
  if text = [] then []
  else most_common top_n (countsInOrder (remainingTokens stop remove_stop_words text))

/-! ## Classifier (`classifier.py`) -/

/-- Python's substring test `pat in cs`. -/
def isSubstring (pat cs : List Char) : Bool :=
  cs.tails.any (fun t => pat.isPrefixOf t)

/-- `ScientificArticleClassifier.scientific_keywords`. -/
def scientific_keywords : List (List Char) :=
  ["abstract".toList, "resumo".toList, "introduction".toList, "introdução".toList,
   "methodology".toList, "metodologia".toList, "results".toList, "resultados".toList,
   "discussion".toList, "discussão".toList, "conclusion".toList, "conclusão".toList,
   "references".toList, "referências".toList, "bibliografia".toList,
   "hypothesis".toList, "hipótese".toList, "experiment".toList, "experimento".toList,
   "analysis".toList, "análise".toList, "study".toList, "estudo".toList,
   "research".toList, "pesquisa".toList, "method".toList, "método".toList,
   "et al".toList, "figure".toList, "figura".toList, "table".toList, "tabela".toList,
   "doi".toList, "issn".toList, "journal".toList, "revista".toList]

/-- The fixed section-name list of `extract_features`. -/
def sections : List (List Char) :=
  ["abstract".toList, "introduction".toList, "method".toList, "result".toList,
   "conclusion".toList, "reference".toList]

/-- Length of the match of `\([A-Z][a-z]+,?\s+\d{4}\)` at the head of the
input, if any.  The pattern is deterministic: every greedy piece is followed
by a piece that accepts none of the characters the greedy piece accepts, so
maximal munch reproduces the backtracking semantics exactly. -/
def matchCitParen : List Char → Option Nat
  | '(' :: c :: rest =>
    if c.isUpper then
      let low := rest.takeWhile Char.isLower
      if low.isEmpty then none
      else
        let r1 := rest.dropWhile Char.isLower
        let comma := if r1.head? = some ',' then 1 else 0
        let r2 := r1.drop comma
        let ws := r2.takeWhile isPySpace
        if ws.isEmpty then none
        else
          match r2.dropWhile isPySpace with
          | d1 :: d2 :: d3 :: d4 :: ')' :: _ =>
            if d1.isDigit && d2.isDigit && d3.isDigit && d4.isDigit then
              some (2 + low.length + comma + ws.length + 5)
            else none
          | _ => none
    else none
  | _ => none

/-- Character class `[0-9,\s-]` of the bracketed-citation pattern. -/
def isBrkCls (c : Char) : Bool := c.isDigit || c = ',' || isPySpace c || c = '-'

/-- Length of the match of `\[[0-9,\s-]+\]` at the head of the input. -/
def matchCitBracket : List Char → Option Nat
  | '[' :: rest =>
    let run := rest.takeWhile isBrkCls
    if run.isEmpty then none
    else
      match rest.dropWhile isBrkCls with
      | ']' :: _ => some (run.length + 2)
      | _ => none
  | _ => none

/-- Length of the match of `et\s+al\.?,?\s+\d{4}` at the head of the input. -/
def matchCitEtAl : List Char → Option Nat
  | 'e' :: 't' :: rest =>
    let ws1 := rest.takeWhile isPySpace
    if ws1.isEmpty then none
    else
      match rest.dropWhile isPySpace with
      | 'a' :: 'l' :: r2 =>
        let dot := if r2.head? = some '.' then 1 else 0
        let r3 := r2.drop dot
        let comma := if r3.head? = some ',' then 1 else 0
        let r4 := r3.drop comma
        let ws2 := r4.takeWhile isPySpace
        if ws2.isEmpty then none
        else
          match r4.dropWhile isPySpace with
          | d1 :: d2 :: d3 :: d4 :: _ =>
            if d1.isDigit && d2.isDigit && d3.isDigit && d4.isDigit then
              some (4 + ws1.length + dot + comma + ws2.length + 4)
            else none
          | _ => none
      | _ => none
  | _ => none

/-- `len(re.findall(pattern, ·))` for a deterministic pattern given by a head
matcher returning match lengths: scan left to right counting non-overlapping
matches; after a match of length `n` resume right after it, otherwise advance
one character.  (All matchers above match at least 6 characters, so the `- 1`
is always well defined.) -/
def countMatchesGo (f : List Char → Option Nat) : Nat → List Char → Nat
  | _, [] => 0
  | skip + 1, _ :: rest => countMatchesGo f skip rest
  | 0, c :: rest =>
    match f (c :: rest) with
    | some n => 1 + countMatchesGo f (n - 1) rest
    | none => countMatchesGo f 0 rest

/-- `len(re.findall(pattern, cs))`. -/
def countMatches (f : List Char → Option Nat) (cs : List Char) : Nat :=
  countMatchesGo f 0 cs

/-- Match of `doi:\s*10\.\d+` at the head of the input (existence only). -/
def matchDoiAt : List Char → Bool
  | 'd' :: 'o' :: 'i' :: ':' :: rest =>
    match rest.dropWhile isPySpace with
    | '1' :: '0' :: '.' :: c :: _ => c.isDigit
    | _ => false
  | _ => false

/-- `bool(re.search(r'doi:\s*10\.\d+', cs))`. -/
def searchDoi (cs : List Char) : Bool := cs.tails.any matchDoiAt

/-- Character class `[:\s]` of the ISSN pattern. -/
def isIssnSep (c : Char) : Bool := c = ':' || isPySpace c

/-- Trailing part `\d{3}[\dxX]` of the ISSN pattern. -/
def issnTail : List Char → Bool
  | e1 :: e2 :: e3 :: e4 :: _ =>
    e1.isDigit && e2.isDigit && e3.isDigit && (e4.isDigit || e4 = 'x' || e4 = 'X')
  | _ => false

/-- Match of `issn[:\s]+\d{4}-?\d{3}[\dxX]` at the head of the input. -/
def matchIssnAt : List Char → Bool
  | 'i' :: 's' :: 's' :: 'n' :: c :: rest =>
    if isIssnSep c then
      match rest.dropWhile isIssnSep with
      | d1 :: d2 :: d3 :: d4 :: r =>
        if d1.isDigit && d2.isDigit && d3.isDigit && d4.isDigit then
          match r with
          | '-' :: r2 => issnTail r2
          | _ => issnTail r
        else false
      | _ => false
    else false
  | _ => false

/-- `bool(re.search(r'issn[:\s]+\d{4}-?\d{3}[\dxX]', cs))`. -/
def searchIssn (cs : List Char) : Bool := cs.tails.any matchIssnAt

/-- The feature record produced by `extract_features`. -/
structure FeatureSet where
  keyword_count : Nat
  citation_count : Nat
  has_doi : Bool
  has_issn : Bool
  section_count : Nat
deriving DecidableEq

/-- `ScientificArticleClassifier.extract_features`. -/
def extract_features (text : List Char) : FeatureSet :=
  let text_lower := pyLower text
  { keyword_count := (scientific_keywords.filter (fun kw => isSubstring kw text_lower)).length
    citation_count :=
      countMatches matchCitParen text + countMatches matchCitBracket text +
        countMatches matchCitEtAl text
    has_doi := searchDoi text_lower
    has_issn := searchIssn text_lower
    section_count := (sections.filter (fun s => isSubstring s text_lower)).length }

/-- `ScientificArticleClassifier.calculate_confidence_score`.  Python float
arithmetic is modelled by exact rationals. -/
def calculate_confidence_score (features : FeatureSet) : ℚ :=
  min
    (min ((features.keyword_count : ℚ) * 0.015) 0.3 +
      min ((features.citation_count : ℚ) * 0.02) 0.3 +
      (if features.has_doi then 0.1 else 0) +
      (if features.has_issn then 0.1 else 0) +
      min ((features.section_count : ℚ) * 0.04) 0.2)
    1

/-- The classification verdict returned by `classify`.  The empty feature
dict of the short-text branch is modelled by `none`. -/
structure Verdict where
  is_scientific : Bool
  confidence : ℚ
  reason : String
  features : Option FeatureSet
deriving DecidableEq

/-- `ScientificArticleClassifier.classify`.  `not text or len(text.strip()) < 100`
collapses to the single trimmed-length test, since an empty text has trimmed
length `0`. -/
def classify (text : List Char) : Verdict :=
  if (pyStrip text).length < 100 then
    { is_scientific := false, confidence := 0, reason := "Texto muito curto",
      features := none }
  else
    let features := extract_features text
    let confidence := calculate_confidence_score features
    { is_scientific := decide ((0.3 : ℚ) ≤ confidence)
      confidence := confidence
      reason := if (0.3 : ℚ) ≤ confidence then "Artigo Científico" else "Não é artigo científico"
      features := some features }

/-! ## Compliance validator (`compliance_validator.py`) -/

/-- The part of the analysis dict that `check_compliance` reads; `none`
models an absent key (`dict.get` with default `0`). -/
structure Analysis where
  word_count : Option Nat
  paragraph_count : Option Nat

/-- The fixed requirement thresholds echoed in the compliance result. -/
structure Requirements where
  min_words : Nat
  min_paragraphs : Nat
deriving DecidableEq

/-- The result dict of `check_compliance`. -/
structure ComplianceResult where
  is_compliant : Bool
  word_count : Nat
  paragraph_count : Nat
  requirements : Requirements
  reasons : List String
deriving DecidableEq

/-- `f"Palavras: {word_count} (mínimo: {self.min_words})"`. -/
def wordShortfallMsg (wc : Nat) : String :=
  "Palavras: " ++ toString wc ++ " (mínimo: 2000)"

/-- `f"Parágrafos: {paragraph_count} (mínimo: {self.min_paragraphs})"`. -/
def paragraphShortfallMsg (pc : Nat) : String :=
  "Parágrafos: " ++ toString pc ++ " (mínimo: 5)"

/-- `ComplianceValidator.check_compliance` with `min_words = 2000`,
`min_paragraphs = 5`. -/
def check_compliance (analysis : Analysis) : ComplianceResult :=
  let word_count := analysis.word_count.getD 0
  let paragraph_count := analysis.paragraph_count.getD 0
  let is_compliant := decide (2000 < word_count) && decide (5 < paragraph_count)
  let reasons :=
    (if word_count ≤ 2000 then [wordShortfallMsg word_count] else []) ++
      (if paragraph_count ≤ 5 then [paragraphShortfallMsg paragraph_count] else [])
  { is_compliant := is_compliant
    word_count := word_count
    paragraph_count := paragraph_count
    requirements := { min_words := 2000, min_paragraphs := 5 }
    reasons := if is_compliant then [] else reasons }

/-! ## Spec-side pattern predicates for claim C9

The claim states `has_doi`/`has_issn` as "contains such-and-such pattern";
the following definitions render that wording.  The executable forms mirror
the claim's literal wording (whitespace REQUIRED after `doi:`, separator
OPTIONAL after `issn`); the propositional forms state containment of the
patterns that the source's regexes actually use. -/

/-- Modelled from the claim's wording for `has_doi`: `doi:` followed by
whitespace (at least one character, as the sentence states) then `10.` and
digits. -/
def claimDoiAt : List Char → Bool
  | 'd' :: 'o' :: 'i' :: ':' :: rest =>
    if (rest.takeWhile isPySpace).isEmpty then false
    else
      match rest.dropWhile isPySpace with
      | '1' :: '0' :: '.' :: c :: _ => c.isDigit
      | _ => false
  | _ => false

/-- The claim's `has_doi` pattern, searched anywhere in the text. -/
def claimSearchDoi (cs : List Char) : Bool := cs.tails.any claimDoiAt

/-- Modelled from the claim's wording for `has_issn`: `issn` with OPTIONAL
colon/whitespace followed by the digit groups. -/
def claimIssnAt : List Char → Bool
  | 'i' :: 's' :: 's' :: 'n' :: rest =>
    match rest.dropWhile isIssnSep with
    | d1 :: d2 :: d3 :: d4 :: r =>
      if d1.isDigit && d2.isDigit && d3.isDigit && d4.isDigit then
        match r with
        | '-' :: r2 => issnTail r2
        | _ => issnTail r
      else false
    | _ => false
  | _ => false

/-- The claim's `has_issn` pattern, searched anywhere in the text. -/
def claimSearchIssn (cs : List Char) : Bool := cs.tails.any claimIssnAt

/-- Declarative containment of the DOI pattern the source actually matches:
`doi:`, optional whitespace, `10.`, at least one digit. -/
def ContainsDoiPattern (cs : List Char) : Prop :=
  ∃ pre ws d post,
    cs = pre ++ ('d' :: 'o' :: 'i' :: ':' :: ws) ++ ('1' :: '0' :: '.' :: d :: post) ∧
      (∀ c ∈ ws, isPySpace c = true) ∧ d.isDigit = true

/-- Declarative containment of the ISSN pattern the source actually matches:
`issn`, at least one colon/whitespace character, four digits, an optional
hyphen, three digits and a final digit-or-x/X. -/
def ContainsIssnPattern (cs : List Char) : Prop :=
  ∃ pre sep d1 d2 d3 d4 hy e1 e2 e3 e4 post,
    cs = pre ++ ('i' :: 's' :: 's' :: 'n' :: []) ++ sep ++ [d1, d2, d3, d4] ++ hy ++
        [e1, e2, e3, e4] ++ post ∧
      sep ≠ [] ∧ (∀ c ∈ sep, isIssnSep c = true) ∧
      d1.isDigit = true ∧ d2.isDigit = true ∧ d3.isDigit = true ∧ d4.isDigit = true ∧
      e1.isDigit = true ∧ e2.isDigit = true ∧ e3.isDigit = true ∧
      (e4.isDigit = true ∨ e4 = 'x' ∨ e4 = 'X') ∧
      (hy = [] ∨ hy = ['-'])

/-! ## Theorems -/

/-- C1: for every `FeatureSet`, the confidence score is exactly the sum of the
five contributions — `min(keyword_count × 0.015, 0.30)`,
`min(citation_count × 0.02, 0.30)`, `0.10` if `has_doi`, `0.10` if `has_issn`,
`min(section_count × 0.04, 0.20)` — clamped to at most `1.0`, and the
resulting confidence always lies in `[0, 1]`. -/
theorem confidence_score_sum_and_bounds (f : FeatureSet) :
    calculate_confidence_score f =
      min (min ((f.keyword_count : ℚ) * 0.015) 0.3 +
        min ((f.citation_count : ℚ) * 0.02) 0.3 +
        (if f.has_doi then (0.1 : ℚ) else 0) +
        (if f.has_issn then (0.1 : ℚ) else 0) +
        min ((f.section_count : ℚ) * 0.04) 0.2) 1 ∧
      0 ≤ calculate_confidence_score f ∧ calculate_confidence_score f ≤ 1 := by
  refine ⟨rfl, ?_, min_le_right _ _⟩
  unfold calculate_confidence_score
  have h1 : (0 : ℚ) ≤ min ((f.keyword_count : ℚ) * 0.015) 0.3 :=
    le_min (by positivity) (by norm_num)
  have h2 : (0 : ℚ) ≤ min ((f.citation_count : ℚ) * 0.02) 0.3 :=
    le_min (by positivity) (by norm_num)
  have h3 : (0 : ℚ) ≤ (if f.has_doi then (0.1 : ℚ) else 0) := by split <;> norm_num
  have h4 : (0 : ℚ) ≤ (if f.has_issn then (0.1 : ℚ) else 0) := by split <;> norm_num
  have h5 : (0 : ℚ) ≤ min ((f.section_count : ℚ) * 0.04) 0.2 :=
    le_min (by positivity) (by norm_num)
  have : (0 : ℚ) ≤ (1 : ℚ) := by norm_num
  exact le_min (by linarith) this

/-- C2: for every text passing the length gate (trimmed length at least 100),
`classify` reports `is_scientific` exactly when the computed confidence is at
least `0.30`, with the threshold inclusive. -/
theorem classify_threshold (text : List Char) (h : 100 ≤ (pyStrip text).length) :
    (classify text).is_scientific = true ↔
      (0.3 : ℚ) ≤ (classify text).confidence := by
  have hn : ¬ (pyStrip text).length < 100 := by omega
  simp only [classify, if_neg hn]
  exact decide_eq_true_iff

theorem classify_threshold_witness :
    100 ≤ (pyStrip (List.replicate 100 'z')).length ∧
      ((classify (List.replicate 100 'z')).is_scientific = true ↔
        (0.3 : ℚ) ≤ (classify (List.replicate 100 'z')).confidence) :=
  ⟨by decide, classify_threshold (List.replicate 100 'z') (by decide)⟩

/-- C3: for every text whose trimmed length is below 100 characters (which
includes the empty text), `classify` skips feature extraction and returns the
fixed short-text verdict: not scientific, confidence `0`, empty features and
the short-text reason (the source's literal message `"Texto muito curto"`,
which the spec glosses as "text too short"). -/
theorem classify_short_text (text : List Char) (h : (pyStrip text).length < 100) :
    classify text =
      { is_scientific := false, confidence := 0, reason := "Texto muito curto",
        features := none } := by
  unfold classify
  rw [if_pos h]

theorem classify_short_text_witness :
    (pyStrip ('o' :: 'i' :: [])).length < 100 ∧
      classify ('o' :: 'i' :: []) =
        { is_scientific := false, confidence := 0, reason := "Texto muito curto",
          features := none } :=
  ⟨by decide, classify_short_text ('o' :: 'i' :: []) (by decide)⟩

/-- C4: compliance holds exactly when `word_count > 2000` and
`paragraph_count > 5` (strict); `reasons` is empty exactly when compliant, and
otherwise lists the word-count shortfall message (when `word_count ≤ 2000`)
followed by the paragraph-count shortfall message (when
`paragraph_count ≤ 5`), in that order. -/
theorem check_compliance_spec (wc pc : Nat) :
    ((check_compliance ⟨some wc, some pc⟩).is_compliant = true ↔ 2000 < wc ∧ 5 < pc) ∧
      ((check_compliance ⟨some wc, some pc⟩).reasons = [] ↔
        (check_compliance ⟨some wc, some pc⟩).is_compliant = true) ∧
      (check_compliance ⟨some wc, some pc⟩).reasons =
        (if wc ≤ 2000 then [wordShortfallMsg wc] else []) ++
          (if pc ≤ 5 then [paragraphShortfallMsg pc] else []) := by
  simp only [check_compliance, Option.getD_some]
  by_cases h1 : 2000 < wc <;> by_cases h2 : 5 < pc <;>
    simp [h1, h2, Nat.not_lt.mp, if_neg, if_pos]

/-- C10: `check_compliance` treats an absent `word_count` or
`paragraph_count` field as `0` (so the result is identical to passing `0`
explicitly) and therefore reports non-compliance; with both fields absent the
reasons are exactly the two shortfall messages, word count first. -/
theorem check_compliance_missing_fields :
    (∀ pc, (check_compliance ⟨none, pc⟩).is_compliant = false ∧
        check_compliance ⟨none, pc⟩ = check_compliance ⟨some 0, pc⟩) ∧
      (∀ wc, (check_compliance ⟨wc, none⟩).is_compliant = false ∧
        check_compliance ⟨wc, none⟩ = check_compliance ⟨wc, some 0⟩) ∧
      (check_compliance ⟨none, none⟩).reasons =
        [wordShortfallMsg 0, paragraphShortfallMsg 0] := by
  refine ⟨fun pc => ⟨?_, rfl⟩, fun wc => ⟨?_, rfl⟩, ?_⟩
  · simp [check_compliance]
  · simp [check_compliance]
  · simp [check_compliance, wordShortfallMsg, paragraphShortfallMsg]

/-- C8: the confidence score is monotonically non-decreasing in each of
`keyword_count`, `citation_count` and `section_count` (the other features
held fixed), and each contribution saturates at its cap: beyond 20 keywords
(cap 0.30), 15 citations (cap 0.30) and 5 sections (cap 0.20) the score no
longer changes. -/
theorem confidence_monotone_saturating :
    (∀ (f : FeatureSet) (k k' : Nat), k ≤ k' →
      calculate_confidence_score { f with keyword_count := k } ≤
        calculate_confidence_score { f with keyword_count := k' }) ∧
      (∀ (f : FeatureSet) (k k' : Nat), k ≤ k' →
        calculate_confidence_score { f with citation_count := k } ≤
          calculate_confidence_score { f with citation_count := k' }) ∧
      (∀ (f : FeatureSet) (k k' : Nat), k ≤ k' →
        calculate_confidence_score { f with section_count := k } ≤
          calculate_confidence_score { f with section_count := k' }) ∧
      (∀ (f : FeatureSet) (k : Nat), 20 ≤ k →
        calculate_confidence_score { f with keyword_count := k } =
          calculate_confidence_score { f with keyword_count := 20 }) ∧
      (∀ (f : FeatureSet) (k : Nat), 15 ≤ k →
        calculate_confidence_score { f with citation_count := k } =
          calculate_confidence_score { f with citation_count := 15 }) ∧
      (∀ (f : FeatureSet) (k : Nat), 5 ≤ k →
        calculate_confidence_score { f with section_count := k } =
          calculate_confidence_score { f with section_count := 5 }) := by
  refine ⟨?_, ?_, ?_, ?_, ?_, ?_⟩
  · intro f k k' h
    unfold calculate_confidence_score
    simp only
    have hc : (k : ℚ) ≤ (k' : ℚ) := by exact_mod_cast h
    gcongr
  · intro f k k' h
    unfold calculate_confidence_score
    simp only
    have hc : (k : ℚ) ≤ (k' : ℚ) := by exact_mod_cast h
    gcongr
  · intro f k k' h
    unfold calculate_confidence_score
    simp only
    have hc : (k : ℚ) ≤ (k' : ℚ) := by exact_mod_cast h
    gcongr
  · intro f k h
    unfold calculate_confidence_score
    simp only
    have hc : (20 : ℚ) ≤ (k : ℚ) := by exact_mod_cast h
    rw [min_eq_right (by nlinarith : (0.3 : ℚ) ≤ (k : ℚ) * 0.015),
      min_eq_right (by norm_num : (0.3 : ℚ) ≤ ((20 : Nat) : ℚ) * 0.015)]
  · intro f k h
    unfold calculate_confidence_score
    simp only
    have hc : (15 : ℚ) ≤ (k : ℚ) := by exact_mod_cast h
    rw [min_eq_right (by nlinarith : (0.3 : ℚ) ≤ (k : ℚ) * 0.02),
      min_eq_right (by norm_num : (0.3 : ℚ) ≤ ((15 : Nat) : ℚ) * 0.02)]
  · intro f k h
    unfold calculate_confidence_score
    simp only
    have hc : (5 : ℚ) ≤ (k : ℚ) := by exact_mod_cast h
    rw [min_eq_right (by nlinarith : (0.2 : ℚ) ≤ (k : ℚ) * 0.04),
      min_eq_right (by norm_num : (0.2 : ℚ) ≤ ((5 : Nat) : ℚ) * 0.04)]

theorem confidence_monotone_saturating_witness :
    (1 ≤ 2 ∧
      calculate_confidence_score
          { keyword_count := 1, citation_count := 0, has_doi := false,
            has_issn := false, section_count := 0 } ≤
        calculate_confidence_score
          { keyword_count := 2, citation_count := 0, has_doi := false,
            has_issn := false, section_count := 0 }) ∧
      (20 ≤ 25 ∧
        calculate_confidence_score
            { keyword_count := 25, citation_count := 0, has_doi := false,
              has_issn := false, section_count := 0 } =
          calculate_confidence_score
            { keyword_count := 20, citation_count := 0, has_doi := false,
              has_issn := false, section_count := 0 }) := by
  constructor
  · exact ⟨by decide, confidence_monotone_saturating.1
      { keyword_count := 0, citation_count := 0, has_doi := false, has_issn := false,
        section_count := 0 } 1 2 (by decide)⟩
  · exact ⟨by decide, confidence_monotone_saturating.2.2.2.1
      { keyword_count := 0, citation_count := 0, has_doi := false, has_issn := false,
        section_count := 0 } 25 (by decide)⟩

theorem digit_not_pySpace {c : Char} (h : c.isDigit = true) : isPySpace c = false := by
  unfold isPySpace
  have : ∀ x : Char, x.isDigit = true → x ≠ ' ' ∧ x ≠ '\t' ∧ x ≠ '\n' ∧ x ≠ '\r' ∧ x ≠ '\x0b' ∧ x ≠ '\x0c' := by
    intro x hx
    refine ⟨?_, ?_, ?_, ?_, ?_, ?_⟩ <;> (intro e; rw [e] at hx; exact absurd hx (by decide))
  obtain ⟨h1, h2, h3, h4, h5, h6⟩ := this c h
  simp [h1, h2, h3, h4, h5, h6]

theorem digit_not_issnSep {c : Char} (h : c.isDigit = true) : isIssnSep c = false := by
  unfold isIssnSep
  have h0 : c ≠ ':' := by intro e; rw [e] at h; exact absurd h (by decide)
  simp [h0, digit_not_pySpace h]

theorem matchDoiAt_iff (t : List Char) :
    matchDoiAt t = true ↔
      ∃ ws d post,
        t = 'd' :: 'o' :: 'i' :: ':' :: (ws ++ '1' :: '0' :: '.' :: d :: post) ∧
          (∀ c ∈ ws, isPySpace c = true) ∧ d.isDigit = true := by
  constructor
  · intro h
    unfold matchDoiAt at h
    split at h
    case _ rest =>
      split at h
      case _ c post heq =>
        refine ⟨rest.takeWhile isPySpace, c, post, ?_, ?_, h⟩
        · have := List.takeWhile_append_dropWhile isPySpace rest
          rw [heq] at this
          rw [this]
        · intro c hc
          exact List.mem_takeWhile_imp hc
      case _ => simp at h
    case _ => simp at h
  · rintro ⟨ws, d, post, rfl, hws, hd⟩
    have hdrop : (ws ++ '1' :: '0' :: '.' :: d :: post).dropWhile isPySpace
        = '1' :: '0' :: '.' :: d :: post := by
      rw [List.dropWhile_append_of_pos hws]
      simp [List.dropWhile_cons, show isPySpace '1' = false from by decide]
    simp [matchDoiAt, hdrop, hd]
theorem issnTail_iff (l : List Char) :
    issnTail l = true ↔
      ∃ e1 e2 e3 e4 post, l = e1 :: e2 :: e3 :: e4 :: post ∧
        e1.isDigit = true ∧ e2.isDigit = true ∧ e3.isDigit = true ∧
        (e4.isDigit = true ∨ e4 = 'x' ∨ e4 = 'X') := by
  constructor
  · intro h
    unfold issnTail at h
    split at h
    case _ e1 e2 e3 e4 post =>
      simp only [Bool.and_eq_true, Bool.or_eq_true, decide_eq_true_eq] at h
      obtain ⟨⟨⟨h1, h2⟩, h3⟩, h4⟩ := h
      exact ⟨e1, e2, e3, e4, post, rfl, h1, h2, h3, by tauto⟩
    case _ => simp at h
  · rintro ⟨e1, e2, e3, e4, post, rfl, h1, h2, h3, h4⟩
    unfold issnTail
    simp only [Bool.and_eq_true, Bool.or_eq_true, decide_eq_true_eq]
    exact ⟨⟨⟨h1, h2⟩, h3⟩, by tauto⟩

theorem matchIssnAt_iff (t : List Char) :
    matchIssnAt t = true ↔
      ∃ sep d1 d2 d3 d4 hy e1 e2 e3 e4 post,
        t = 'i' :: 's' :: 's' :: 'n' ::
            (sep ++ [d1, d2, d3, d4] ++ hy ++ e1 :: e2 :: e3 :: e4 :: post) ∧
          sep ≠ [] ∧ (∀ c ∈ sep, isIssnSep c = true) ∧
          d1.isDigit = true ∧ d2.isDigit = true ∧ d3.isDigit = true ∧ d4.isDigit = true ∧
          e1.isDigit = true ∧ e2.isDigit = true ∧ e3.isDigit = true ∧
          (e4.isDigit = true ∨ e4 = 'x' ∨ e4 = 'X') ∧ (hy = [] ∨ hy = ['-']) := by
  constructor
  · intro h
    unfold matchIssnAt at h
    split at h
    case _ c rest =>
      split at h
      case isTrue hc =>
        split at h
        case _ d1 d2 d3 d4 r heq =>
          split at h
          case isTrue hds =>
            simp only [Bool.and_eq_true] at hds
            obtain ⟨⟨⟨hd1, hd2⟩, hd3⟩, hd4⟩ := hds
            have hshape : rest = rest.takeWhile isIssnSep ++ d1 :: d2 :: d3 :: d4 :: r := by
              have := List.takeWhile_append_dropWhile isIssnSep rest
              rw [heq] at this
              exact this.symm
            have hsepAll : ∀ x ∈ c :: rest.takeWhile isIssnSep, isIssnSep x = true := by
              intro x hx
              rcases List.mem_cons.mp hx with h' | h'
              · exact h' ▸ hc
              · exact List.mem_takeWhile_imp h'
            split at h
            case _ r2 =>
              obtain ⟨e1, e2, e3, e4, post, rfl, he1, he2, he3, he4⟩ :=
                (issnTail_iff r2).mp h
              refine ⟨c :: rest.takeWhile isIssnSep, d1, d2, d3, d4, ['-'], e1, e2, e3, e4,
                post, ?_, by simp, hsepAll, hd1, hd2, hd3, hd4,
                he1, he2, he3, he4, Or.inr rfl⟩
              conv_lhs => rw [hshape]
              simp
            case _ hne =>
              obtain ⟨e1, e2, e3, e4, post, hr, he1, he2, he3, he4⟩ :=
                (issnTail_iff r).mp h
              refine ⟨c :: rest.takeWhile isIssnSep, d1, d2, d3, d4, [], e1, e2, e3, e4,
                post, ?_, by simp, hsepAll, hd1, hd2, hd3, hd4,
                he1, he2, he3, he4, Or.inl rfl⟩
              conv_lhs => rw [hshape, hr]
              simp
          case isFalse => simp at h
        case _ => simp at h
      case isFalse => simp at h
    case _ => simp at h
  · rintro ⟨sep, d1, d2, d3, d4, hy, e1, e2, e3, e4, post, rfl, hsep, hsepAll,
      hd1, hd2, hd3, hd4, he1, he2, he3, he4, hhy⟩
    rcases sep with _ | ⟨s, sep'⟩
    · exact absurd rfl hsep
    have hs : isIssnSep s = true := hsepAll s (List.mem_cons_self s sep')
    have hsep' : ∀ x ∈ sep', isIssnSep x = true := fun x hx =>
      hsepAll x (List.mem_cons_of_mem s hx)
    have he1ne : e1 ≠ '-' := by
      intro e; rw [e] at he1; exact absurd he1 (by decide)
    rcases hhy with rfl | rfl
    · simp only [List.cons_append, List.nil_append, List.append_nil]
      simp only [matchIssnAt]
      rw [if_pos hs]
      have hdrop : (sep' ++ ([d1, d2, d3, d4] ++ e1 :: e2 :: e3 :: e4 :: post)).dropWhile
            isIssnSep = d1 :: d2 :: d3 :: d4 :: e1 :: e2 :: e3 :: e4 :: post := by
        rw [List.dropWhile_append_of_pos hsep']
        simp [List.dropWhile_cons, digit_not_issnSep hd1]
      rw [show sep' ++ [d1, d2, d3, d4] ++ e1 :: e2 :: e3 :: e4 :: post
          = sep' ++ ([d1, d2, d3, d4] ++ e1 :: e2 :: e3 :: e4 :: post) by simp]
      rw [hdrop]
      dsimp only
      rw [if_pos (by simp [hd1, hd2, hd3, hd4])]
      split
      case _ r2 heq2 =>
        exact absurd (by exact (List.cons.injEq ..).mp heq2 |>.1) he1ne
      case _ =>
        simp only [issnTail, Bool.and_eq_true, Bool.or_eq_true, decide_eq_true_eq]
        exact ⟨⟨⟨he1, he2⟩, he3⟩, by tauto⟩
    · simp only [List.cons_append, List.nil_append]
      simp only [matchIssnAt]
      rw [if_pos hs]
      have hdrop : (sep' ++ ([d1, d2, d3, d4] ++ '-' :: e1 :: e2 :: e3 :: e4 :: post)).dropWhile
            isIssnSep = d1 :: d2 :: d3 :: d4 :: '-' :: e1 :: e2 :: e3 :: e4 :: post := by
        rw [List.dropWhile_append_of_pos hsep']
        simp [List.dropWhile_cons, digit_not_issnSep hd1]
      rw [show sep' ++ [d1, d2, d3, d4] ++ ['-'] ++ e1 :: e2 :: e3 :: e4 :: post
          = sep' ++ ([d1, d2, d3, d4] ++ '-' :: e1 :: e2 :: e3 :: e4 :: post) by simp]
      rw [hdrop]
      dsimp only
      rw [if_pos (by simp [hd1, hd2, hd3, hd4])]
      simp only [issnTail, Bool.and_eq_true, Bool.or_eq_true, decide_eq_true_eq]
      exact ⟨⟨⟨he1, he2⟩, he3⟩, by tauto⟩
theorem searchDoi_iff (cs : List Char) :
    searchDoi cs = true ↔ ContainsDoiPattern cs := by
  unfold searchDoi
  rw [List.any_eq_true]
  constructor
  · rintro ⟨t, ht, hm⟩
    rw [List.mem_tails] at ht
    obtain ⟨pre, hpre⟩ := ht
    obtain ⟨ws, d, post, rfl, hws, hd⟩ := (matchDoiAt_iff t).mp hm
    exact ⟨pre, ws, d, post, by rw [← hpre]; simp, hws, hd⟩
  · rintro ⟨pre, ws, d, post, rfl, hws, hd⟩
    refine ⟨'d' :: 'o' :: 'i' :: ':' :: (ws ++ '1' :: '0' :: '.' :: d :: post), ?_, ?_⟩
    · rw [List.mem_tails]
      exact ⟨pre, by simp⟩
    · exact (matchDoiAt_iff _).mpr ⟨ws, d, post, rfl, hws, hd⟩

theorem searchIssn_iff (cs : List Char) :
    searchIssn cs = true ↔ ContainsIssnPattern cs := by
  unfold searchIssn
  rw [List.any_eq_true]
  constructor
  · rintro ⟨t, ht, hm⟩
    rw [List.mem_tails] at ht
    obtain ⟨pre, hpre⟩ := ht
    obtain ⟨sep, d1, d2, d3, d4, hy, e1, e2, e3, e4, post, rfl, hsep, hsepAll,
      hd1, hd2, hd3, hd4, he1, he2, he3, he4, hhy⟩ := (matchIssnAt_iff t).mp hm
    exact ⟨pre, sep, d1, d2, d3, d4, hy, e1, e2, e3, e4, post, by rw [← hpre]; simp,
      hsep, hsepAll, hd1, hd2, hd3, hd4, he1, he2, he3, he4, hhy⟩
  · rintro ⟨pre, sep, d1, d2, d3, d4, hy, e1, e2, e3, e4, post, rfl, hsep, hsepAll,
      hd1, hd2, hd3, hd4, he1, he2, he3, he4, hhy⟩
    refine ⟨'i' :: 's' :: 's' :: 'n' ::
      (sep ++ [d1, d2, d3, d4] ++ hy ++ e1 :: e2 :: e3 :: e4 :: post), ?_, ?_⟩
    · rw [List.mem_tails]
      exact ⟨pre, by simp⟩
    · exact (matchIssnAt_iff _).mpr ⟨sep, d1, d2, d3, d4, hy, e1, e2, e3, e4, post, rfl,
        hsep, hsepAll, hd1, hd2, hd3, hd4, he1, he2, he3, he4, hhy⟩

/-- C9 counterexample: the claim's wording fails against the code on concrete
inputs.  The text `"doi:10.5"` has `has_doi = true` although it has no
whitespace after `doi:` (the claim's pattern, rendered by `claimSearchDoi`,
rejects it: the source regex uses `\s*`, not required whitespace); the text
`"issn1234-567x"` has `has_issn = false` although the claim's pattern with
optional separator (rendered by `claimSearchIssn`) accepts it: the source
regex uses `[:\s]+`, requiring at least one separator character. -/
theorem doi_issn_claim_counterexample :
    ((extract_features ("doi:10.5").toList).has_doi = true ∧
        claimSearchDoi (pyLower ("doi:10.5").toList) = false) ∧
      ((extract_features ("issn1234-567x").toList).has_issn = false ∧
        claimSearchIssn (pyLower ("issn1234-567x").toList) = true) := by
  refine ⟨⟨?_, ?_⟩, ⟨?_, ?_⟩⟩ <;> decide

/-- C9 amended: `has_doi` is true iff the lower-cased text contains `doi:`
followed by OPTIONAL whitespace then `10.` and digits, and `has_issn` is true
iff the lower-cased text contains `issn` followed by AT LEAST ONE
colon/whitespace character, then 4 digits, an optional hyphen, 3 digits and a
final digit-or-X/x. -/
theorem has_doi_has_issn_pattern (text : List Char) :
    ((extract_features text).has_doi = true ↔ ContainsDoiPattern (pyLower text)) ∧
      ((extract_features text).has_issn = true ↔ ContainsIssnPattern (pyLower text)) := by
  constructor
  · have h : (extract_features text).has_doi = searchDoi (pyLower text) := rfl
    rw [h, searchDoi_iff]
  · have h : (extract_features text).has_issn = searchIssn (pyLower text) := rfl
    rw [h, searchIssn_iff]

/-! ## Segmentation lemmas (claims C5 and C7) -/

theorem splitOnP_sound (p : Char → Bool) :
    ∀ (cs : List Char), ∀ w ∈ cs.splitOnP p, ∀ c ∈ w, p c = false := by
  intro cs
  induction cs with
  | nil =>
    intro w hw c hc
    simp [List.splitOnP_nil] at hw
    subst hw
    simp at hc
  | cons x xs ih =>
    intro w hw c hc
    rw [List.splitOnP_cons] at hw
    by_cases hx : p x
    · rw [if_pos hx] at hw
      rcases List.mem_cons.mp hw with rfl | hw'
      · simp at hc
      · exact ih w hw' c hc
    · rw [if_neg hx] at hw
      rcases hsp : xs.splitOnP p with _ | ⟨h0, t0⟩
      · exact absurd hsp (List.splitOnP_ne_nil p xs)
      · rw [hsp] at hw
        simp only [List.modifyHead] at hw
        rcases List.mem_cons.mp hw with rfl | hw'
        · rcases List.mem_cons.mp hc with rfl | hc'
          · exact Bool.eq_false_iff.mpr hx
          · exact ih h0 (hsp ▸ List.mem_cons_self h0 t0) c hc'
        · exact ih w (hsp ▸ List.mem_cons_of_mem h0 hw') c hc

theorem pySplit_sound {cs w : List Char} (hw : w ∈ pySplit cs) :
    w ≠ [] ∧ ∀ c ∈ w, isPySpace c = false := by
  unfold pySplit at hw
  have h1 := List.of_mem_filter hw
  have h2 := List.mem_of_mem_filter hw
  refine ⟨by simpa using h1, splitOnP_sound isPySpace cs w h2⟩

theorem pySplit_nil : pySplit [] = [] := rfl

theorem pySplit_no_space {w : List Char} (hne : w ≠ [])
    (hns : ∀ c ∈ w, isPySpace c = false) : pySplit w = [w] := by
  unfold pySplit
  rw [List.splitOnP_eq_single _ _ (fun c hc => by simp [hns c hc])]
  simp [hne]

theorem pySplit_word_cons {w : List Char} (l : List Char) (hne : w ≠ [])
    (hns : ∀ c ∈ w, isPySpace c = false) :
    pySplit (w ++ ' ' :: l) = w :: pySplit l := by
  unfold pySplit
  rw [List.splitOnP_first _ _ (fun c hc => by simp [hns c hc]) ' ' (by decide)]
  simp [hne]

theorem pySplit_unwords (ws : List (List Char))
    (h : ∀ w ∈ ws, w ≠ [] ∧ ∀ c ∈ w, isPySpace c = false) :
    pySplit (unwords ws) = ws := by
  induction ws with
  | nil => rfl
  | cons w ws ih =>
    rcases ws with _ | ⟨x, ws'⟩
    · exact pySplit_no_space (h w (by simp)).1 (h w (by simp)).2
    · rw [show unwords (w :: x :: ws') = w ++ ' ' :: unwords (x :: ws') from rfl]
      rw [pySplit_word_cons _ (h w (by simp)).1 (h w (by simp)).2]
      rw [ih (fun v hv => h v (List.mem_cons_of_mem w hv))]
theorem modifyHead_append_left (f : List Char → List Char) (A B : List (List Char))
    (h : A ≠ []) : (A ++ B).modifyHead f = A.modifyHead f ++ B := by
  cases A with
  | nil => exact absurd rfl h
  | cons a A => simp

theorem splitOnP_concat_sep (p : Char → Bool) (s : Char) (hs : p s = true)
    (l : List Char) : (l ++ [s]).splitOnP p = l.splitOnP p ++ [[]] := by
  induction l with
  | nil => simp [List.splitOnP_cons, hs]
  | cons c l ih =>
    rw [List.cons_append, List.splitOnP_cons, List.splitOnP_cons]
    by_cases hc : p c
    · simp [hc, ih]
    · rw [if_neg hc, if_neg hc, ih,
        modifyHead_append_left _ _ _ (List.splitOnP_ne_nil p l)]

theorem pySplit_concat_ws (ws : List Char) :
    ∀ l : List Char, (∀ c ∈ ws, isPySpace c = true) → pySplit (l ++ ws) = pySplit l := by
  induction ws using List.reverseRecOn with
  | nil => simp
  | append_singleton ws s ih =>
    intro l h
    rw [← List.append_assoc]
    unfold pySplit
    rw [splitOnP_concat_sep isPySpace s (h s (by simp))]
    rw [List.filter_append]
    have : List.filter (fun w => decide (w ≠ [])) [([] : List Char)] = [] := by decide
    rw [this, List.append_nil]
    exact ih l (fun c hc => h c (by simp [hc]))

theorem pySplit_cons_ws (c : Char) (hc : isPySpace c = true) (l : List Char) :
    pySplit (c :: l) = pySplit l := by
  unfold pySplit
  rw [List.splitOnP_cons, if_pos hc]
  simp

theorem pySplit_ws_append (ws : List Char) :
    ∀ l : List Char, (∀ c ∈ ws, isPySpace c = true) → pySplit (ws ++ l) = pySplit l := by
  induction ws with
  | nil => simp
  | cons c ws ih =>
    intro l h
    rw [List.cons_append, pySplit_cons_ws c (h c (by simp))]
    exact ih l (fun x hx => h x (by simp [hx]))

theorem dropWhile_eq_strip_append (t : List Char) :
    ∃ ws2, t.dropWhile isPySpace = pyStrip t ++ ws2 ∧ ∀ c ∈ ws2, isPySpace c = true := by
  refine ⟨((t.dropWhile isPySpace).reverse.takeWhile isPySpace).reverse, ?_, ?_⟩
  · unfold pyStrip
    conv_lhs => rw [← (t.dropWhile isPySpace).reverse_reverse]
    conv_lhs =>
      rw [← List.takeWhile_append_dropWhile isPySpace (t.dropWhile isPySpace).reverse]
    rw [List.reverse_append]
  · intro c hc
    rw [List.mem_reverse] at hc
    exact List.mem_takeWhile_imp hc

theorem pySplit_strip (t : List Char) : pySplit (pyStrip t) = pySplit t := by
  obtain ⟨ws2, hu, h2⟩ := dropWhile_eq_strip_append t
  conv_rhs => rw [← List.takeWhile_append_dropWhile isPySpace t]
  rw [pySplit_ws_append _ _ (fun c hc => List.mem_takeWhile_imp hc)]
  rw [hu, pySplit_concat_ws _ _ h2]

theorem head_all_dropWhile (p : Char → Bool) (l : List Char) :
    ((l.dropWhile p).head?).all (fun c => !p c) = true := by
  have h := List.head?_dropWhile_not p l
  rcases hh : (l.dropWhile p).head? with _ | c
  · simp
  · rw [hh] at h
    simp [h]

theorem pyStrip_getLast_all (t : List Char) :
    ((pyStrip t).getLast?).all (fun c => !isPySpace c) = true := by
  unfold pyStrip
  rw [List.getLast?_reverse]
  exact head_all_dropWhile isPySpace _

theorem pyStrip_head_all (t : List Char) :
    ((pyStrip t).head?).all (fun c => !isPySpace c) = true := by
  rcases hS : pyStrip t with _ | ⟨c, rest⟩
  · simp
  · obtain ⟨ws2, hu, _⟩ := dropWhile_eq_strip_append t
    rw [hS] at hu
    have hhead : (t.dropWhile isPySpace).head? = some c := by
      rw [hu]
      simp
    have := head_all_dropWhile isPySpace t
    rw [hhead] at this
    simpa using this

theorem pyStrip_subset {t : List Char} {c : Char} (h : c ∈ pyStrip t) : c ∈ t := by
  unfold pyStrip at h
  rw [List.mem_reverse] at h
  have h1 := (List.dropWhile_sublist isPySpace).mem h
  rw [List.mem_reverse] at h1
  exact (List.dropWhile_sublist isPySpace).mem h1
theorem unwords_cons_cons (w x : List Char) (ws : List (List Char)) :
    unwords (w :: x :: ws) = w ++ ' ' :: unwords (x :: ws) := rfl

theorem unwords_ne_nil {w : List Char} (hw : w ≠ []) (ws : List (List Char)) :
    unwords (w :: ws) ≠ [] := by
  rcases ws with _ | ⟨x, ws'⟩
  · simpa [unwords]
  · rw [unwords_cons_cons]
    simp

theorem unwords_head? {w : List Char} (hw : w ≠ []) (ws : List (List Char)) :
    (unwords (w :: ws)).head? = w.head? := by
  rcases ws with _ | ⟨x, ws'⟩
  · rfl
  · rw [unwords_cons_cons, List.head?_append]
    rcases w with _ | ⟨c, w'⟩
    · exact absurd rfl hw
    · rfl

theorem unwords_head_all {ws : List (List Char)}
    (h : ∀ w ∈ ws, w ≠ [] ∧ ∀ c ∈ w, isPySpace c = false) :
    ((unwords ws).head?).all (fun c => !isPySpace c) = true := by
  rcases ws with _ | ⟨w, ws'⟩
  · simp [unwords]
  · rw [unwords_head? (h w (by simp)).1]
    rcases hw : w with _ | ⟨c, w'⟩
    · exact absurd hw (h w (by simp)).1
    · have := (h w (by simp)).2 c (by simp [hw])
      simp [this]

theorem unwords_getLast_all {ws : List (List Char)}
    (h : ∀ w ∈ ws, w ≠ [] ∧ ∀ c ∈ w, isPySpace c = false) :
    ((unwords ws).getLast?).all (fun c => !isPySpace c) = true := by
  induction ws with
  | nil => simp [unwords]
  | cons w ws ih =>
    rcases ws with _ | ⟨x, ws'⟩
    · show ((w.getLast?).all (fun c => !isPySpace c)) = true
      rcases hw : w.getLast? with _ | c
      · simp
      · have hwne : w ≠ [] := by
          intro e
          rw [e] at hw
          simp at hw
        have hc : c ∈ w := by
          rw [List.getLast?_eq_getLast w hwne] at hw
          exact (Option.some.injEq .. ▸ hw : _) ▸ List.getLast_mem hwne
        have := (h w (by simp)).2 c hc
        simp [this]
    · rw [unwords_cons_cons]
      have hne := unwords_ne_nil (h x (by simp)).1 ws'
      rw [List.getLast?_append_of_ne_nil _ (by simp)]
      rw [show ' ' :: unwords (x :: ws') = [' '] ++ unwords (x :: ws') from rfl]
      rw [List.getLast?_append_of_ne_nil _ hne]
      exact ih (fun v hv => h v (List.mem_cons_of_mem w hv))

theorem mem_unwords {c : Char} {ws : List (List Char)} (hc : c ∈ unwords ws) :
    c = ' ' ∨ ∃ w ∈ ws, c ∈ w := by
  induction ws with
  | nil => simp [unwords] at hc
  | cons w ws ih =>
    rcases ws with _ | ⟨x, ws'⟩
    · right
      exact ⟨w, by simp, hc⟩
    · rw [unwords_cons_cons] at hc
      rcases List.mem_append.mp hc with h1 | h1
      · right
        exact ⟨w, by simp, h1⟩
      · rcases List.mem_cons.mp h1 with rfl | h2
        · left; rfl
        · rcases ih h2 with h3 | ⟨v, hv, hcv⟩
          · left; exact h3
          · right; exact ⟨v, List.mem_cons_of_mem w hv, hcv⟩

theorem unwords_no_newline {ws : List (List Char)}
    (h : ∀ w ∈ ws, w ≠ [] ∧ ∀ c ∈ w, isPySpace c = false) :
    '\n' ∉ unwords ws := by
  intro hmem
  rcases mem_unwords hmem with h1 | ⟨w, hw, hcw⟩
  · exact absurd h1 (by decide)
  · have := (h w hw).2 '\n' hcw
    exact absurd this (by decide)
theorem rawSplitGo_cons (cur run : List Char) (c : Char) (rest : List Char) :
    rawSplitGo cur run (c :: rest) =
      if isPySpace c then rawSplitGo cur (run ++ [c]) rest
      else if 2 ≤ run.count '\n' then
        (cur ++ runBefore run) :: rawSplitGo (runAfter run ++ [c]) [] rest
      else rawSplitGo (cur ++ run ++ [c]) [] rest := rfl

theorem rawSplitGo_eof (cur run : List Char) :
    rawSplitGo cur run [] =
      if 2 ≤ run.count '\n' then [cur ++ runBefore run, runAfter run]
      else [cur ++ run] := rfl

theorem pyStrip_eq_self {cs : List Char}
    (h1 : ((cs.head?).all (fun c => !isPySpace c)) = true)
    (h2 : ((cs.getLast?).all (fun c => !isPySpace c)) = true) : pyStrip cs = cs := by
  unfold pyStrip
  have hd : cs.dropWhile isPySpace = cs := by
    rcases cs with _ | ⟨c, l⟩
    · rfl
    · simp only [List.head?_cons, Option.all_some] at h1
      rw [List.dropWhile_cons, if_neg (by simpa using h1)]
  rw [hd]
  have hrev : cs.reverse.dropWhile isPySpace = cs.reverse := by
    rcases hrh : cs.reverse with _ | ⟨c, l⟩
    · rfl
    · have hc : cs.getLast? = some c := by
        rw [← List.head?_reverse, hrh]
        rfl
      rw [hc] at h2
      simp only [Option.all_some] at h2
      rw [List.dropWhile_cons, if_neg (by simpa using h2)]
  rw [hrev, List.reverse_reverse]

theorem rawSplitGo_chunk (p : List Char) (hne : p ≠ []) (hn : '\n' ∉ p)
    (hlast : ((p.getLast?).all (fun c => !isPySpace c)) = true) :
    ∀ cur run rest, '\n' ∉ run →
      rawSplitGo cur run (p ++ rest) = rawSplitGo (cur ++ run ++ p) [] rest := by
  induction p with
  | nil => exact absurd rfl hne
  | cons c p' ih =>
    intro cur run rest hrun
    have hcount : run.count '\n' = 0 := List.count_eq_zero.mpr hrun
    rcases p' with _ | ⟨x, p''⟩
    · have hc : isPySpace c = false := by simpa using hlast
      show rawSplitGo cur run (c :: rest) = _
      rw [rawSplitGo_cons, if_neg (by simp [hc]), if_neg (by omega)]
    · have hcn : c ≠ '\n' := fun e => hn (e ▸ List.mem_cons_self c (x :: p''))
      have hn' : '\n' ∉ x :: p'' := fun hm => hn (List.mem_cons_of_mem c hm)
      have hlast' : (((x :: p'').getLast?).all (fun c => !isPySpace c)) = true := by
        rwa [List.getLast?_cons_cons] at hlast
      rw [List.cons_append]
      by_cases hc : isPySpace c = true
      · rw [rawSplitGo_cons, if_pos hc,
          ih (by simp) hn' hlast' cur (run ++ [c]) rest (by simp [hrun, Ne.symm hcn])]
        simp [List.append_assoc]
      · rw [rawSplitGo_cons, if_neg (by simp [hc]), if_neg (by omega),
          ih (by simp) hn' hlast' (cur ++ run ++ [c]) [] rest (by simp)]
        simp [List.append_assoc]

theorem rawSplitGo_sep (cur rest : List Char)
    (hrest : ((rest.head?).all (fun c => !isPySpace c)) = true) :
    rawSplitGo cur [] ('\n' :: '\n' :: rest) = cur :: rawSplitGo [] [] rest := by
  have hsp : isPySpace '\n' = true := by decide
  rw [rawSplitGo_cons, if_pos hsp, rawSplitGo_cons, if_pos hsp]
  rcases rest with _ | ⟨d, rest'⟩
  · rw [rawSplitGo_eof, if_pos (by decide), rawSplitGo_eof, if_neg (by decide)]
    norm_num
    decide
  · simp only [List.head?_cons, Option.all_some] at hrest
    have hd : isPySpace d = false := by simpa using hrest
    rw [rawSplitGo_cons, if_neg (by simp [hd]), if_pos (by decide)]
    conv_rhs => rw [rawSplitGo_cons, if_neg (by simp [hd]), if_neg (by decide)]
    norm_num
    constructor
    · decide
    · rw [show runAfter ['\n', '\n'] = [] by decide]
      simp
theorem extract_body_head? (q : List Char) (hq : q ≠ []) (qs : List (List Char)) :
    (extract_body_text (q :: qs)).head? = q.head? := by
  rcases qs with _ | ⟨r, rs⟩
  · rfl
  · show (q ++ '\n' :: '\n' :: extract_body_text (r :: rs)).head? = q.head?
    rcases q with _ | ⟨c, q'⟩
    · exact absurd rfl hq
    · rfl

theorem extract_body_ne_nil (q : List Char) (hq : q ≠ []) (qs : List (List Char)) :
    extract_body_text (q :: qs) ≠ [] := by
  intro h
  have h2 := extract_body_head? q hq qs
  rw [h] at h2
  rcases q with _ | ⟨c, q'⟩
  · exact absurd rfl hq
  · simp at h2

theorem extract_body_getLast_all (ps : List (List Char))
    (h : ∀ p ∈ ps, p ≠ [] ∧ ((p.getLast?).all (fun c => !isPySpace c)) = true) :
    ((extract_body_text ps).getLast?).all (fun c => !isPySpace c) = true := by
  induction ps with
  | nil => simp [extract_body_text]
  | cons p ps' ih =>
    rcases ps' with _ | ⟨q, qs⟩
    · exact (h p (by simp)).2
    · have hE := extract_body_ne_nil q (h q (by simp)).1 qs
      show ((p ++ '\n' :: '\n' :: extract_body_text (q :: qs)).getLast?).all
        (fun c => !isPySpace c) = true
      rw [List.getLast?_append_cons]
      rw [show ('\n' :: '\n' :: extract_body_text (q :: qs)) =
        ['\n'] ++ '\n' :: extract_body_text (q :: qs) from rfl]
      rw [List.getLast?_append_cons]
      rw [show ('\n' :: extract_body_text (q :: qs)) =
        ['\n'] ++ extract_body_text (q :: qs) from rfl]
      rw [List.getLast?_append_of_ne_nil _ hE]
      exact ih (fun r hr => h r (List.mem_cons_of_mem p hr))

theorem extract_body_head_all (ps : List (List Char))
    (h : ∀ p ∈ ps, p ≠ [] ∧ ((p.head?).all (fun c => !isPySpace c)) = true) :
    ((extract_body_text ps).head?).all (fun c => !isPySpace c) = true := by
  rcases ps with _ | ⟨p, ps'⟩
  · simp [extract_body_text]
  · rw [extract_body_head? p (h p (by simp)).1 ps']
    exact (h p (by simp)).2

theorem rawSplitGo_join (ps : List (List Char))
    (h : ∀ p ∈ ps, p ≠ [] ∧ '\n' ∉ p ∧ (((p.head?).all (fun c => !isPySpace c)) = true) ∧
      (((p.getLast?).all (fun c => !isPySpace c)) = true)) :
    ∀ cur, ps ≠ [] →
      rawSplitGo cur [] (extract_body_text ps) = ps.modifyHead (fun b => cur ++ b) := by
  induction ps with
  | nil => intro cur hne; exact absurd rfl hne
  | cons p ps' ih =>
    intro cur _
    obtain ⟨hne, hn, hhead, hlast⟩ := h p (by simp)
    rcases ps' with _ | ⟨q, qs⟩
    · show rawSplitGo cur [] p = [cur ++ p]
      have h1 : rawSplitGo cur [] (p ++ []) = rawSplitGo (cur ++ [] ++ p) [] [] :=
        rawSplitGo_chunk p hne hn hlast cur [] [] (by simp)
      rw [List.append_nil] at h1
      rw [h1, rawSplitGo_eof, if_neg (by simp)]
      simp
    · show rawSplitGo cur [] (p ++ '\n' :: '\n' :: extract_body_text (q :: qs)) = _
      rw [rawSplitGo_chunk p hne hn hlast cur [] _ (by simp)]
      have hEhead : (((extract_body_text (q :: qs)).head?).all
          (fun c => !isPySpace c)) = true :=
        extract_body_head_all (q :: qs)
          (fun r hr => ⟨(h r (List.mem_cons_of_mem p hr)).1,
            (h r (List.mem_cons_of_mem p hr)).2.2.1⟩)
      rw [rawSplitGo_sep _ _ hEhead]
      rw [ih (fun r hr => h r (List.mem_cons_of_mem p hr)) [] (by simp)]
      simp

theorem mem_detect_paragraphs {t p : List Char} (hp : p ∈ detect_paragraphs t) :
    p = unwords (pySplit p) ∧ 3 ≤ (pySplit p).length := by
  unfold detect_paragraphs at hp
  by_cases ht : t = []
  · rw [if_pos ht] at hp
    simp at hp
  · rw [if_neg ht] at hp
    have hcond := List.of_mem_filter hp
    have hmem := List.mem_of_mem_filter hp
    obtain ⟨b, _, rfl⟩ := List.mem_map.mp hmem
    have hsplit : pySplit (unwords (pySplit b)) = pySplit b :=
      pySplit_unwords (pySplit b) (fun w hw => pySplit_sound hw)
    constructor
    · rw [hsplit]
    · simpa using hcond

theorem detect_paragraphs_facts {t p : List Char} (hp : p ∈ detect_paragraphs t) :
    p ≠ [] ∧ '\n' ∉ p ∧ (((p.head?).all (fun c => !isPySpace c)) = true) ∧
      (((p.getLast?).all (fun c => !isPySpace c)) = true) := by
  obtain ⟨hform, hlen⟩ := mem_detect_paragraphs hp
  have hwords : ∀ w ∈ pySplit p, w ≠ [] ∧ ∀ c ∈ w, isPySpace c = false :=
    fun w hw => pySplit_sound hw
  have hws : pySplit p ≠ [] := by
    intro e
    rw [e] at hlen
    simp at hlen
  rcases hsp : pySplit p with _ | ⟨w, ws'⟩
  · exact absurd hsp hws
  · rw [hsp] at hform hwords
    refine ⟨?_, ?_, ?_, ?_⟩
    · rw [hform]
      exact unwords_ne_nil (hwords w (by simp)).1 ws'
    · rw [hform]
      exact unwords_no_newline hwords
    · rw [hform]
      exact unwords_head_all hwords
    · rw [hform]
      exact unwords_getLast_all hwords

/-- C7: segmenting, rejoining with the blank-line separator and re-segmenting
returns exactly the paragraphs of the first segmentation, for every input
text. -/
theorem detect_paragraphs_idempotent (text : List Char) :
    detect_paragraphs (extract_body_text (detect_paragraphs text)) =
      detect_paragraphs text := by
  rcases hps : detect_paragraphs text with _ | ⟨p, ps'⟩
  · rfl
  · have hfacts : ∀ q ∈ p :: ps', q ≠ [] ∧ '\n' ∉ q ∧
        (((q.head?).all (fun c => !isPySpace c)) = true) ∧
        (((q.getLast?).all (fun c => !isPySpace c)) = true) := by
      intro q hq
      exact detect_paragraphs_facts (hps ▸ hq)
    have hne : extract_body_text (p :: ps') ≠ [] :=
      extract_body_ne_nil p (hfacts p (by simp)).1 ps'
    unfold detect_paragraphs
    rw [if_neg hne]
    have hstrip : pyStrip (extract_body_text (p :: ps')) = extract_body_text (p :: ps') :=
      pyStrip_eq_self
        (extract_body_head_all _ (fun r hr => ⟨(hfacts r hr).1, (hfacts r hr).2.2.1⟩))
        (extract_body_getLast_all _ (fun r hr => ⟨(hfacts r hr).1, (hfacts r hr).2.2.2⟩))
    rw [hstrip]
    rw [show rawSplit (extract_body_text (p :: ps')) =
        rawSplitGo [] [] (extract_body_text (p :: ps')) from rfl]
    rw [rawSplitGo_join (p :: ps') hfacts [] (by simp)]
    rw [show (p :: ps').modifyHead (fun b => [] ++ b) = p :: ps' by simp]
    have hmap : (p :: ps').map (fun para => unwords (pySplit para)) = p :: ps' := by
      apply List.map_congr_left ?_ |>.trans (List.map_id _)
      intro q hq
      exact (mem_detect_paragraphs (hps ▸ hq)).1.symm
    rw [hmap]
    rw [List.filter_eq_self.mpr ?_]
    intro q hq
    have := (mem_detect_paragraphs (hps ▸ hq)).2
    simpa using this
/-- C5: paragraph segmentation returns `[]` on empty input; with no newline in
the text it never splits (one cleaned block, kept only with at least 3 words);
a blank line (`\n\n`, or newline, whitespace, newline) splits; a single
newline does not; blocks with fewer than 3 words are dropped; and every
returned paragraph is whitespace-collapsed with at least 3 words, in source
order (witnessed by the two-paragraph example). -/
theorem detect_paragraphs_spec :
    detect_paragraphs [] = [] ∧
      (∀ t : List Char, '\n' ∉ t →
        detect_paragraphs t =
          if 3 ≤ (pySplit t).length then [unwords (pySplit t)] else []) ∧
      detect_paragraphs ("aa bb cc\n\ndd ee ff".toList) =
        ["aa bb cc".toList, "dd ee ff".toList] ∧
      detect_paragraphs ("aa bb cc\ndd ee ff".toList) = ["aa bb cc dd ee ff".toList] ∧
      detect_paragraphs ("aa bb cc\n \ndd ee ff".toList) =
        ["aa bb cc".toList, "dd ee ff".toList] ∧
      detect_paragraphs ("aa bb\n\ncc dd ee".toList) = ["cc dd ee".toList] ∧
      (∀ t p : List Char, p ∈ detect_paragraphs t →
        p = unwords (pySplit p) ∧ 3 ≤ (pySplit p).length) := by
  refine ⟨rfl, ?_, by decide, by decide, by decide, by decide,
    fun t p hp => mem_detect_paragraphs hp⟩
  intro t hn
  by_cases ht : t = []
  · subst ht
    rw [show detect_paragraphs [] = [] from rfl, show pySplit [] = [] from rfl]
    simp
  · unfold detect_paragraphs
    rw [if_neg ht]
    have hsplitu : pySplit (unwords (pySplit t)) = pySplit t :=
      pySplit_unwords _ (fun w hw => pySplit_sound hw)
    by_cases hs : pyStrip t = []
    · rw [hs]
      have hempty : pySplit t = [] := by
        rw [← pySplit_strip, hs, pySplit_nil]
      rw [show rawSplit ([] : List Char) = [[]] from rfl, hempty]
      simp [pySplit_nil, unwords]
    · have hnn : '\n' ∉ pyStrip t := fun hm => hn (pyStrip_subset hm)
      have h1 : rawSplit (pyStrip t) = [pyStrip t] := by
        have h2 := rawSplitGo_chunk (pyStrip t) hs hnn (pyStrip_getLast_all t) [] [] []
          (by simp)
        rw [List.append_nil] at h2
        rw [show rawSplit (pyStrip t) = rawSplitGo [] [] (pyStrip t) from rfl, h2,
          rawSplitGo_eof, if_neg (by simp)]
        simp
      rw [h1]
      simp only [List.map_cons, List.map_nil]
      rw [pySplit_strip]
      by_cases h3 : 3 ≤ (pySplit t).length
      · rw [if_pos h3]
        simp [List.filter, hsplitu, h3]
      · rw [if_neg h3]
        simp [List.filter, hsplitu, h3]

theorem detect_paragraphs_spec_witness :
    ('\n' ∉ ("xx yy zz".toList) ∧
      detect_paragraphs ("xx yy zz".toList) =
        if 3 ≤ (pySplit ("xx yy zz".toList)).length
        then [unwords (pySplit ("xx yy zz".toList))] else []) ∧
      ("xx yy zz".toList ∈ detect_paragraphs ("xx yy zz".toList) ∧
        "xx yy zz".toList = unwords (pySplit ("xx yy zz".toList)) ∧
        3 ≤ (pySplit ("xx yy zz".toList)).length) := by
  constructor
  · exact ⟨by decide, detect_paragraphs_spec.2.1 _ (by decide)⟩
  · exact ⟨by decide, detect_paragraphs_spec.2.2.2.2.2.2 ("xx yy zz".toList)
      ("xx yy zz".toList) (by decide)⟩

/-! ## Frequency-ranking lemmas (claim C6) -/

instance : IsTotal (List Char × Nat) freqRel :=
  ⟨fun a b => (le_total b.2 a.2).imp (fun h => h) (fun h => h)⟩

instance : IsTrans (List Char × Nat) freqRel :=
  ⟨fun _ _ _ h1 h2 => le_trans h2 h1⟩

theorem filter_orderedInsert (c : Nat) (x : List Char × Nat) (s : List (List Char × Nat)) :
    (s.orderedInsert freqRel x).filter (fun p => decide (p.2 = c)) =
      if x.2 = c then x :: s.filter (fun p => decide (p.2 = c))
      else s.filter (fun p => decide (p.2 = c)) := by
  induction s with
  | nil =>
    by_cases hx : x.2 = c <;> simp [List.orderedInsert, List.filter, hx]
  | cons b s' ih =>
    rw [List.orderedInsert]
    by_cases hr : freqRel x b
    · rw [if_pos hr]
      by_cases hx : x.2 = c <;> simp [List.filter_cons, hx]
    · rw [if_neg hr]
      rw [List.filter_cons, ih]
      have hxb : x.2 < b.2 := by
        unfold freqRel at hr
        omega
      by_cases hx : x.2 = c
      · have hb : ¬ b.2 = c := by omega
        simp [hx, hb]
      · by_cases hb : b.2 = c <;> simp [hx, hb]

theorem filter_insertionSort (c : Nat) (l : List (List Char × Nat)) :
    (List.insertionSort freqRel l).filter (fun p => decide (p.2 = c)) =
      l.filter (fun p => decide (p.2 = c)) := by
  induction l with
  | nil => rfl
  | cons x l ih =>
    rw [show List.insertionSort freqRel (x :: l) =
      (List.insertionSort freqRel l).orderedInsert freqRel x from rfl]
    rw [filter_orderedInsert, List.filter_cons, ih]
    by_cases hx : x.2 = c <;> simp [hx]

theorem indexOf_cons_self' (a : List Char) (l : List (List Char)) :
    (a :: l).indexOf a = 0 := by
  simp [List.indexOf, List.findIdx_cons]

theorem indexOf_cons_ne' {a x : List Char} (h : a ≠ x) (l : List (List Char)) :
    (x :: l).indexOf a = l.indexOf a + 1 := by
  have : (x == a) = false := beq_eq_false_iff_ne.mpr (Ne.symm h)
  simp [List.indexOf, List.findIdx_cons, this]

theorem mem_firstOccs {b : List Char} :
    ∀ (l seen : List (List Char)), b ∈ firstOccs seen l → b ∈ l ∧ b ∉ seen := by
  intro l
  induction l with
  | nil => intro seen h; simp [firstOccs] at h
  | cons x l ih =>
    intro seen h
    unfold firstOccs at h
    by_cases hx : seen.contains x
    · rw [if_pos hx] at h
      obtain ⟨h1, h2⟩ := ih seen h
      exact ⟨List.mem_cons_of_mem x h1, h2⟩
    · rw [if_neg hx] at h
      rcases List.mem_cons.mp h with rfl | h'
      · refine ⟨List.mem_cons_self b l, ?_⟩
        intro hb
        exact hx (List.elem_eq_true_of_mem hb)
      · obtain ⟨h1, h2⟩ := ih (x :: seen) h'
        exact ⟨List.mem_cons_of_mem x h1, fun hb => h2 (List.mem_cons_of_mem x hb)⟩

theorem pairwise_firstOccs :
    ∀ (l seen : List (List Char)),
      List.Pairwise (fun a b => l.indexOf a < l.indexOf b) (firstOccs seen l) := by
  intro l
  induction l with
  | nil => intro seen; simp [firstOccs]
  | cons x l ih =>
    intro seen
    unfold firstOccs
    by_cases hx : seen.contains x
    · rw [if_pos hx]
      refine (ih seen).imp_of_mem ?_
      intro a b ha hb hab
      have hane : a ≠ x := by
        intro e
        exact (mem_firstOccs l seen ha).2 (e ▸ List.mem_of_elem_eq_true hx)
      have hbne : b ≠ x := by
        intro e
        exact (mem_firstOccs l seen hb).2 (e ▸ List.mem_of_elem_eq_true hx)
      rw [indexOf_cons_ne' hane, indexOf_cons_ne' hbne]
      omega
    · rw [if_neg hx]
      rw [List.pairwise_cons]
      constructor
      · intro b hb
        have hbne : b ≠ x := by
          intro e
          exact (mem_firstOccs l (x :: seen) hb).2 (e ▸ List.mem_cons_self x seen)
        rw [indexOf_cons_self', indexOf_cons_ne' hbne]
        omega
      · refine (ih (x :: seen)).imp_of_mem ?_
        intro a b ha hb hab
        have hane : a ≠ x := by
          intro e
          exact (mem_firstOccs l (x :: seen) ha).2 (e ▸ List.mem_cons_self x seen)
        have hbne : b ≠ x := by
          intro e
          exact (mem_firstOccs l (x :: seen) hb).2 (e ▸ List.mem_cons_self x seen)
        rw [indexOf_cons_ne' hane, indexOf_cons_ne' hbne]
        omega

theorem pairwise_countsInOrder (toks : List (List Char)) :
    List.Pairwise (fun a b => toks.indexOf a.1 < toks.indexOf b.1)
      (countsInOrder toks) := by
  unfold countsInOrder
  rw [List.pairwise_map]
  exact pairwise_firstOccs toks []

theorem pairwise_of_filter_pairwise {α : Type} (R : α → α → Prop) (p : α → Nat)
    (c : Nat) :
    ∀ l : List α, List.Pairwise R (l.filter (fun a => decide (p a = c))) →
      List.Pairwise (fun a b => p a = c → p b = c → R a b) l := by
  intro l
  induction l with
  | nil => intro _; simp
  | cons x l ih =>
    intro h
    rw [List.filter_cons] at h
    by_cases hx : p x = c
    · rw [if_pos (by simp [hx])] at h
      rw [List.pairwise_cons] at h ⊢
      obtain ⟨hhead, htail⟩ := h
      refine ⟨?_, ih htail⟩
      intro b hb _ hbc
      exact hhead b (List.mem_filter.mpr ⟨hb, by simp [hbc]⟩)
    · rw [if_neg (by simp [hx])] at h
      rw [List.pairwise_cons]
      exact ⟨fun b _ hxc _ => absurd hxc hx, ih h⟩
/-- C6: for every stopword set, text, `top_n` and stopword flag, the frequency
analysis returns at most `top_n` pairs, ordered by descending count, and among
pairs with equal counts the order is the order of the words' first appearance
in the token stream; on `"Data data DATA insight insight"` with stopword
removal disabled it returns `[("data", 3), ("insight", 2)]`. -/
theorem word_frequency_ranking :
    (∀ (stop : List (List Char)) (text : List Char) (n : Nat) (rm : Bool),
      (calculate_word_frequency stop text n rm).length ≤ n ∧
        List.Pairwise (fun a b => b.2 ≤ a.2 ∧ (a.2 = b.2 →
            (remainingTokens stop rm text).indexOf a.1 <
              (remainingTokens stop rm text).indexOf b.1))
          (calculate_word_frequency stop text n rm)) ∧
      calculate_word_frequency [] ("Data data DATA insight insight".toList) 10 false =
        [("data".toList, 3), ("insight".toList, 2)] := by
  constructor
  · intro stop text n rm
    by_cases ht : text = []
    · rw [show calculate_word_frequency stop text n rm = [] by
        unfold calculate_word_frequency
        rw [if_pos ht]]
      simp
    · set toks := remainingTokens stop rm text with htoks
      set S := List.insertionSort freqRel (countsInOrder toks) with hS
      have hrw : calculate_word_frequency stop text n rm = S.take n := by
        unfold calculate_word_frequency most_common
        rw [if_neg ht]
      rw [hrw]
      constructor
      · exact List.length_take_le n S
      · have hsorted : List.Pairwise freqRel S := List.sorted_insertionSort freqRel _
        have hstable : ∀ c : Nat,
            List.Pairwise (fun a b => a.2 = c → b.2 = c →
              toks.indexOf a.1 < toks.indexOf b.1) S := by
          intro c
          apply pairwise_of_filter_pairwise
            (fun (a b : List Char × Nat) => toks.indexOf a.1 < toks.indexOf b.1)
            (fun (p : List Char × Nat) => p.2) c
          rw [hS, filter_insertionSort]
          exact (pairwise_countsInOrder toks).filter _
        have hP : List.Pairwise (fun a b : List Char × Nat => b.2 ≤ a.2 ∧
            (a.2 = b.2 → toks.indexOf a.1 < toks.indexOf b.1)) S := by
          rw [List.pairwise_iff_get]
          intro i j hij
          refine ⟨List.pairwise_iff_get.mp hsorted i j hij, ?_⟩
          intro hc
          exact List.pairwise_iff_get.mp (hstable (S.get i).2) i j hij rfl hc.symm
        exact List.Pairwise.sublist (List.take_sublist n S) hP
  · decide

end ArticleDetector
